import Mathlib

/-!
Verification of the linked-list library (`src/single.rs`, `src/doubly.rs`).

The singly linked list owns its nodes through `Box`, which we embed as a
plain inductive chain (`Single.Node`).  The doubly linked list shares nodes
through `Rc`/`Weak`/`RefCell`, which we embed as an explicit heap of nodes
addressed by never-reused natural-number ids, with strong references
(`head`, each node's `next`) and weak references (`tail`, each node's
`prev`) stored as ids; `Rc::try_unwrap` is modelled by counting the strong
references recorded in the state.
-/

namespace Single

/-- Embeds `Node<T>` of `src/single.rs`: `data: T`, `next: Option<Box<Node<T>>>`.
The `Box` ownership chain is a plain inductive type. -/
inductive Node (T : Type) where
  | mk (data : T) (next : Option (Node T))

variable {T : Type}

/-- Field accessor for `data`. -/
def Node.data : Node T → T
  | ⟨d, _⟩ => d

/-- Field accessor for `next`. -/
def Node.next : Node T → Option (Node T)
  | ⟨_, n⟩ => n

/-- Embeds `Node::new`: a node with the given data and no successor. -/
def Node.new (data : T) : Node T := ⟨data, none⟩

/-- Embeds `LinkedList<T>` of `src/single.rs`: `head: Option<Box<Node<T>>>`,
`length: usize` (embedded as `Nat`; all `usize` arithmetic in the source is
saturating or increments, matching `Nat`). -/
structure LinkedList (T : Type) where
  head : Option (Node T)
  length : Nat

/-- Embeds `LinkedList::new`. -/
def LinkedList.new : LinkedList T := { head := none, length := 0 }

/-- Embeds `LinkedList::push`: new node takes over the current head,
becomes head, length incremented. -/
def LinkedList.push (l : LinkedList T) (elem : T) : LinkedList T :=
  { head := some ⟨elem, l.head⟩, length := l.length + 1 }

/-- Embeds the cursor loop of `LinkedList::append`: walk `next` links to the
end of the chain and attach a fresh node there. -/
def appendNode (elem : T) : Option (Node T) → Node T
  | none => Node.new elem
  | some ⟨d, nx⟩ => ⟨d, some (appendNode elem nx)⟩

/-- Embeds `LinkedList::append`: attach at the end of the chain (the new node
becomes head when the list is empty), length incremented. -/
def LinkedList.append (l : LinkedList T) (elem : T) : LinkedList T :=
  { head := some (appendNode elem l.head), length := l.length + 1 }

/-- Embeds `LinkedList::pop`: take the head, make its successor the new
head, and decrement the length (`saturating_sub`, i.e. `Nat` subtraction)
only when a value was returned. -/
def LinkedList.pop (l : LinkedList T) : Option T × LinkedList T :=
  match l.head with
  | none => (none, l)
  | some n => (some n.data, { head := n.next, length := l.length - 1 })

/-- Embeds the cursor loop of `LinkedList::pop_back`: walk to the last node,
detach it, and return its data together with the remaining chain. -/
def popBackAux : Node T → T × Option (Node T)
  | ⟨d, none⟩ => (d, none)
  | ⟨d, some n⟩ =>
    let r := popBackAux n
    (r.1, some ⟨d, r.2⟩)

/-- Embeds `LinkedList::pop_back`.  Note that the source computes
`self.length.saturating_sub(1)` but binds it to `_`, discarding the result:
the stored length is NOT updated on a successful `pop_back`. -/
def LinkedList.pop_back (l : LinkedList T) : Option T × LinkedList T :=
  match l.head with
  | none => (none, l)
  | some n =>
    let r := popBackAux n
    (some r.1, { head := r.2, length := l.length })

/-- Embeds `LinkedList::len`. -/
def LinkedList.len (l : LinkedList T) : Nat := l.length

/-- Embeds `LinkedList::clear`. -/
def LinkedList.clear (_l : LinkedList T) : LinkedList T :=
  { head := none, length := 0 }

/-- Embeds `LinkedList::is_empty`: `self.length == 0`. -/
def LinkedList.is_empty (l : LinkedList T) : Bool := l.length == 0

/-- Embeds `Iter<'a, T>` of `src/single.rs`: `next: Option<&'a Node<T>>`.
The borrowed node reference is embedded as the node value itself. -/
structure Iter (T : Type) where
  next : Option (Node T)

/-- Embeds `LinkedList::iter`: the iterator starts at the head node. -/
def LinkedList.iter (l : LinkedList T) : Iter T := { next := l.head }

/-- Embeds `Iterator::next` for `Iter`: yield the current node's data and
advance to its successor. -/
def Iter.step : Iter T → Option T × Iter T
  | ⟨none⟩ => (none, ⟨none⟩)
  | ⟨some n⟩ => (some n.data, ⟨n.next⟩)

/-- The elements stored in a chain of nodes, head to tail. -/
def nodeElems : Option (Node T) → List T
  | none => []
  | some ⟨d, nx⟩ => d :: nodeElems nx

/-- The number of nodes reachable by following ownership (`next`) links. -/
def nodeCount : Option (Node T) → Nat
  | none => 0
  | some ⟨_, nx⟩ => nodeCount nx + 1

/-- Repeatedly call `pop`, collecting the returned values, stopping at the
first empty result or when the fuel runs out. -/
def popDrain : Nat → LinkedList T → List T
  | 0, _ => []
  | fuel + 1, l =>
    match l.pop with
    | (none, _) => []
    | (some v, l') => v :: popDrain fuel l'

/-- Repeatedly call `Iter::next` (embedded as `Iter.step`), collecting the
returned values, stopping at the first empty result or out of fuel. -/
def iterDrain : Nat → Iter T → List T
  | 0, _ => []
  | fuel + 1, it =>
    match it.step with
    | (none, _) => []
    | (some v, it') => v :: iterDrain fuel it'

/-- `append` every element of `xs` in order, starting from `l`. -/
def appendAll (l : LinkedList T) (xs : List T) : LinkedList T :=
  xs.foldl LinkedList.append l

/-- `push` every element of `xs` in order, starting from `l`. -/
def pushAll (l : LinkedList T) (xs : List T) : LinkedList T :=
  xs.foldl LinkedList.push l

/-- The public mutating operations of the singly list. -/
inductive Op (T : Type) where
  | push (x : T)
  | append (x : T)
  | pop
  | pop_back

/-- One operation applied to a list state, returning the popped value (if
the operation pops) and the new state. -/
def stepOp : Op T → LinkedList T → Option T × LinkedList T
  | .push x, l => (none, l.push x)
  | .append x, l => (none, l.append x)
  | .pop, l => l.pop
  | .pop_back, l => l.pop_back

/-- Run a sequence of operations, collecting popped values. -/
def runOps : List (Op T) → LinkedList T → List (Option T) × LinkedList T
  | [], l => ([], l)
  | op :: ops, l =>
    let r := stepOp op l
    let rest := runOps ops r.2
    (r.1 :: rest.1, rest.2)

/-- A singly-list state reachable from a new empty list by public operations. -/
def Reachable (l : LinkedList T) : Prop :=
  ∃ ops : List (Op T), (runOps ops LinkedList.new).2 = l

end Single

namespace Doubly

/-- Embeds `Node<T>` of `src/doubly.rs`: `data: T`,
`prev: RefCell<Option<Weak<Node<T>>>>`, `next: RefCell<Option<Rc<Node<T>>>>`.
Both link fields are stored as heap ids; `next` is a strong reference,
`prev` a weak one. -/
structure Node (T : Type) where
  data : T
  prev : Option Nat
  next : Option Nat

variable {T : Type}

/-- Embeds `LinkedList<T>` of `src/doubly.rs`.  The `Rc` heap is a map from
node ids to live nodes; `fresh` is the next never-used id (ids are never
reused, so a stale `Weak` id simply fails to resolve).  `head` holds a
strong reference, `tail` a weak one. -/
structure LinkedList (T : Type) where
  heap : Nat → Option (Node T)
  fresh : Nat
  head : Option Nat
  tail : Option Nat
  length : Nat

/-- Heap update at one id. -/
def hset (h : Nat → Option (Node T)) (i : Nat) (n : Node T) : Nat → Option (Node T) :=
  fun j => if j = i then some n else h j

/-- Heap deletion at one id (the node is destroyed). -/
def hdel (h : Nat → Option (Node T)) (i : Nat) : Nat → Option (Node T) :=
  fun j => if j = i then none else h j

/-- Embeds `Weak::upgrade`: a weak id resolves iff the node is still live. -/
def upgrade (h : Nat → Option (Node T)) : Option Nat → Option Nat
  | none => none
  | some i => if (h i).isSome then some i else none

/-- The number of strong references to node `i` recorded in the list state:
one for `head` if it points at `i`, plus one for every live node whose
`next` points at `i`.  (Live ids are below `fresh`, so scanning
`List.range fresh` covers the whole heap.)  `Rc::try_unwrap` on a locally
held `Rc` succeeds exactly when this count is `0`. -/
def strongCount (l : LinkedList T) (i : Nat) : Nat :=
  (if l.head = some i then 1 else 0) +
    (List.range l.fresh).countP (fun j =>
      match l.heap j with
      | some n => decide (n.next = some i)
      | none => false)

/-- Embeds `LinkedList::new`. -/
def LinkedList.new : LinkedList T :=
  { heap := fun _ => none, fresh := 0, head := none, tail := none, length := 0 }

/-- Embeds `LinkedList::push_front`.  The length is incremented before the
match, as in the source.  Allocating picks the fresh id.  In the non-empty
case the old head's `prev` is set to the new node and the new node's `next`
to the old head; dereferencing the old head `Rc` cannot fail in Rust, so a
dead old-head id makes the model stuck (`none`). -/
def LinkedList.push_front (l : LinkedList T) (elem : T) : Option (LinkedList T) :=
  let nid := l.fresh
  let heap0 := hset l.heap nid ⟨elem, none, none⟩
  let l0 : LinkedList T :=
    { l with heap := heap0, fresh := nid + 1, length := l.length + 1 }
  match l.head with
  | some oldh =>
    match heap0 oldh with
    | some ohn =>
      let heap1 := hset heap0 oldh { ohn with prev := some nid }
      let heap2 := hset heap1 nid ⟨elem, none, some oldh⟩
      some { l0 with heap := heap2, head := some nid }
    | none => none
  | none =>
    some { l0 with head := some nid, tail := some nid }

/-- Embeds `LinkedList::push_back`.  `self.tail.replace(downgrade(new))`
happens before the old tail is examined; if the old tail weak reference
fails to upgrade, no links are rewired (as in the source's `if let`). -/
def LinkedList.push_back (l : LinkedList T) (elem : T) : Option (LinkedList T) :=
  let nid := l.fresh
  let heap0 := hset l.heap nid ⟨elem, none, none⟩
  let l0 : LinkedList T :=
    { l with heap := heap0, fresh := nid + 1, tail := some nid, length := l.length + 1 }
  match l.tail with
  | some otw =>
    match heap0 otw with
    | some otn =>
      let heap1 := hset heap0 otw { otn with next := some nid }
      let heap2 := hset heap1 nid ⟨elem, some otw, none⟩
      some { l0 with heap := heap2 }
    | none => some l0
  | none =>
    some { l0 with head := some nid }

/-- Embeds `LinkedList::pop_front`.  The head `Rc` is taken; the head
node's `next` is taken; a successor gets its `prev` cleared and becomes the
new head, otherwise `tail` is cleared.  `Rc::try_unwrap(head_node).ok().unwrap()`
panics unless the taken `Rc` is the last strong reference, i.e. unless
`strongCount` of the detached state is `0`; the panic is modelled as `none`.
The length is decremented (`saturating_sub`) only when a value is returned. -/
def LinkedList.pop_front (l : LinkedList T) : Option (Option T × LinkedList T) :=
  match l.head with
  | none => some (none, { l with head := none })
  | some hid =>
    match l.heap hid with
    | none => none
    | some hn =>
      let heap1 := hset l.heap hid { hn with next := none }
      let st1 : Option (LinkedList T) :=
        match hn.next with
        | some nid =>
          match heap1 nid with
          | none => none
          | some nn =>
            some { l with heap := hset heap1 nid { nn with prev := none },
                          head := some nid }
        | none =>
          some { l with heap := heap1, head := none, tail := none }
      match st1 with
      | none => none
      | some st =>
        if strongCount st hid = 0 then
          some (some hn.data, { st with heap := hdel st.heap hid, length := st.length - 1 })
        else
          none

/-- Embeds `LinkedList::pop_back`.  The source first decrements the length
whenever `tail` is present, then takes `tail` and tries to upgrade it;
on failure it returns `None` with the length already decremented.  On
success the old tail's `prev` is taken; an upgradable predecessor gets its
`next` cleared and becomes the new tail, otherwise `head` is cleared.
`Rc::try_unwrap(old_tail).ok().map(..)` does not panic: on failure the
value is `None`; on success the length is decremented a second time. -/
def LinkedList.pop_back (l : LinkedList T) : Option (Option T × LinkedList T) :=
  let l0 : LinkedList T :=
    if l.tail.isSome then { l with length := l.length - 1 } else l
  let l1 : LinkedList T := { l0 with tail := none }
  match upgrade l1.heap l0.tail with
  | none => some (none, l1)
  | some tid =>
    match l1.heap tid with
    | none => none
    | some tn =>
      let heap1 := hset l1.heap tid { tn with prev := none }
      let st1 : Option (LinkedList T) :=
        match upgrade heap1 tn.prev with
        | some pid =>
          match heap1 pid with
          | none => none
          | some pn =>
            some { l1 with heap := hset heap1 pid { pn with next := none },
                           tail := some pid }
        | none =>
          some { l1 with heap := heap1, head := none }
      match st1 with
      | none => none
      | some st =>
        if strongCount st tid = 0 then
          some (some tn.data, { st with heap := hdel st.heap tid, length := st.length - 1 })
        else
          some (none, st)

/-- Embeds `LinkedList::len`. -/
def LinkedList.len (l : LinkedList T) : Nat := l.length

/-- Embeds `LinkedList::clear`: `*self = Self::new()`. -/
def LinkedList.clear (_l : LinkedList T) : LinkedList T := LinkedList.new

/-- The data of the nodes reachable from `cur` by `next` links, bounded by
`fuel` (any fuel at least the chain length gives the whole chain). -/
def chainElems (h : Nat → Option (Node T)) : Nat → Option Nat → List T
  | 0, _ => []
  | _ + 1, none => []
  | fuel + 1, some i =>
    match h i with
    | none => []
    | some n => n.data :: chainElems h fuel n.next

/-- The logical element order of the list: data along `next` links from
`head` (fuel `fresh` is enough for any list whose live ids are below
`fresh`). -/
def LinkedList.toList (l : LinkedList T) : List T :=
  chainElems l.heap l.fresh l.head

/-- The public mutating operations of the doubly list. -/
inductive Op (T : Type) where
  | push_front (x : T)
  | push_back (x : T)
  | pop_front
  | pop_back

/-- One operation applied to a list state; `none` when the operation gets
stuck (which never happens on reachable states). -/
def stepOp : Op T → LinkedList T → Option (Option T × LinkedList T)
  | .push_front x, l => (l.push_front x).map (fun l' => (none, l'))
  | .push_back x, l => (l.push_back x).map (fun l' => (none, l'))
  | .pop_front, l => l.pop_front
  | .pop_back, l => l.pop_back

/-- Run a sequence of operations, collecting popped values. -/
def runOps : List (Op T) → LinkedList T → Option (List (Option T) × LinkedList T)
  | [], l => some ([], l)
  | op :: ops, l =>
    match stepOp op l with
    | none => none
    | some (v, l') =>
      match runOps ops l' with
      | none => none
      | some (vs, lf) => some (v :: vs, lf)

/-- A doubly-list state reachable from a new empty list by a successfully
completed sequence of public operations. -/
def Reachable (l : LinkedList T) : Prop :=
  ∃ ops : List (Op T), (runOps ops LinkedList.new).map Prod.snd = some l

end Doubly

namespace Single

variable {T : Type}

/-- Appending at the end of a chain adds the element after the existing
elements. -/
theorem nodeElems_appendNode : ∀ (c : Option (Node T)) (e : T),
    nodeElems (some (appendNode e c)) = nodeElems c ++ [e]
  | none, _ => by simp [appendNode, Node.new, nodeElems]
  | some ⟨d, nx⟩, e => by
    simp [appendNode, nodeElems, nodeElems_appendNode nx e]

/-- `appendAll` puts the inserted elements after the existing ones, in
insertion order. -/
theorem nodeElems_appendAll : ∀ (xs : List T) (l : LinkedList T),
    nodeElems (appendAll l xs).head = nodeElems l.head ++ xs
  | [], l => by simp [appendAll]
  | x :: xs, l => by
    have h1 : appendAll l (x :: xs) = appendAll (l.append x) xs := rfl
    have h2 : (l.append x).head = some (appendNode x l.head) := rfl
    rw [h1, nodeElems_appendAll xs (l.append x), h2, nodeElems_appendNode]
    simp

/-- `pushAll` puts the inserted elements before the existing ones, in
reverse insertion order. -/
theorem nodeElems_pushAll : ∀ (xs : List T) (l : LinkedList T),
    nodeElems (pushAll l xs).head = xs.reverse ++ nodeElems l.head
  | [], l => by simp [pushAll]
  | x :: xs, l => by
    have h1 : pushAll l (x :: xs) = pushAll (l.push x) xs := rfl
    have h2 : nodeElems (l.push x).head = x :: nodeElems l.head := by
      simp [LinkedList.push, nodeElems]
    rw [h1, nodeElems_pushAll xs (l.push x), h2]
    simp

/-- The node count of a chain is the number of stored elements. -/
theorem nodeCount_eq_length_nodeElems : ∀ (c : Option (Node T)),
    nodeCount c = (nodeElems c).length
  | none => by simp [nodeCount, nodeElems]
  | some ⟨_, nx⟩ => by
    simp [nodeCount, nodeElems, nodeCount_eq_length_nodeElems nx]

/-- Draining by repeated `pop` with at least as much fuel as there are
nodes yields exactly the chain's elements, head to tail, independently of
the stored length counter. -/
theorem popDrain_eq : ∀ (c : Option (Node T)) (extra len : Nat),
    popDrain (nodeCount c + extra) ⟨c, len⟩ = nodeElems c
  | none, extra, len => by
    cases extra with
    | zero => simp [popDrain, nodeCount, nodeElems]
    | succ k => simp [popDrain, LinkedList.pop, nodeCount, nodeElems]
  | some ⟨d, nx⟩, extra, len => by
    have hc : nodeCount (some (Node.mk d nx)) + extra = (nodeCount nx + extra) + 1 := by
      simp [nodeCount]; omega
    rw [hc]
    simp [popDrain, LinkedList.pop, Node.data, Node.next, nodeElems,
      popDrain_eq nx extra (len - 1)]

/-- Draining the iterator with at least as much fuel as there are nodes
yields exactly the chain's elements, head to tail. -/
theorem iterDrain_eq : ∀ (c : Option (Node T)) (extra : Nat),
    iterDrain (nodeCount c + extra) ⟨c⟩ = nodeElems c
  | none, extra => by
    cases extra with
    | zero => simp [iterDrain, nodeCount, nodeElems]
    | succ k => simp [iterDrain, Iter.step, nodeCount, nodeElems]
  | some ⟨d, nx⟩, extra => by
    have hc : nodeCount (some (Node.mk d nx)) + extra = (nodeCount nx + extra) + 1 := by
      simp [nodeCount]; omega
    rw [hc]
    simp [iterDrain, Iter.step, Node.data, Node.next, nodeElems,
      iterDrain_eq nx extra]

end Single

namespace Doubly

variable {T : Type}

@[simp] theorem hset_eq (h : Nat → Option (Node T)) (i : Nat) (n : Node T) :
    hset h i n i = some n := by simp [hset]

theorem hset_ne (h : Nat → Option (Node T)) (i : Nat) (n : Node T) {j : Nat}
    (hij : j ≠ i) : hset h i n j = h j := by simp [hset, hij]

@[simp] theorem hdel_eq (h : Nat → Option (Node T)) (i : Nat) :
    hdel h i i = none := by simp [hdel]

theorem hdel_ne (h : Nat → Option (Node T)) (i : Nat) {j : Nat}
    (hij : j ≠ i) : hdel h i j = h j := by simp [hdel, hij]

/-- Structural well-formedness of a doubly-list state.  All conditions are
local to single nodes; they hold in every reachable state and are exactly
what is needed to show the strong-reference count of a detached node is one
and that an empty head entails an empty tail.  The (buggy) stored length is
deliberately unconstrained. -/
structure WF (l : LinkedList T) : Prop where
  fresh_bound : ∀ i, (l.heap i).isSome → i < l.fresh
  head_ok : ∀ h, l.head = some h → ∃ n, l.heap h = some n ∧ n.prev = none
  next_ok : ∀ i n j, l.heap i = some n → n.next = some j →
    ∃ m, l.heap j = some m ∧ m.prev = some i
  prev_ok : ∀ i n j, l.heap i = some n → n.prev = some j →
    ∃ m, l.heap j = some m ∧ m.next = some i
  tail_none : l.tail = none ↔ l.head = none
  tail_ok : ∀ t, l.tail = some t → ∃ n, l.heap t = some n ∧ n.next = none

/-- No strong reference to `i` is recorded when neither `head` nor any live
node's `next` points at `i`. -/
theorem strongCount_eq_zero {l : LinkedList T} {i : Nat}
    (hh : l.head ≠ some i)
    (hn : ∀ j n, l.heap j = some n → n.next ≠ some i) :
    strongCount l i = 0 := by
  unfold strongCount
  rw [if_neg hh, List.countP_eq_zero.2]
  intro j _
  cases hj : l.heap j with
  | none => simp [hj]
  | some n => simp [hj]; exact hn j n hj

/-- The empty list is well formed. -/
theorem wf_new : WF (LinkedList.new (T := T)) := by
  constructor <;> simp [LinkedList.new]

/-- Unfolding of `push_front` on an empty list. -/
theorem push_front_none (l : LinkedList T) (x : T) (hh : l.head = none) :
    l.push_front x = some
      { l with
        heap := hset l.heap l.fresh ⟨x, none, none⟩,
        fresh := l.fresh + 1,
        head := some l.fresh,
        tail := some l.fresh,
        length := l.length + 1 } := by
  simp only [LinkedList.push_front, hh]

/-- Unfolding of `push_front` on a non-empty list with live head. -/
theorem push_front_some (l : LinkedList T) (x : T) {oldh : Nat} {ohn : Node T}
    (hh : l.head = some oldh) (hohn : l.heap oldh = some ohn) (hne : oldh ≠ l.fresh) :
    l.push_front x = some
      { l with
        heap := hset (hset (hset l.heap l.fresh ⟨x, none, none⟩) oldh
          { ohn with prev := some l.fresh }) l.fresh ⟨x, none, some oldh⟩,
        fresh := l.fresh + 1,
        head := some l.fresh,
        length := l.length + 1 } := by
  have hl : hset l.heap l.fresh ⟨x, none, none⟩ oldh = some ohn := by
    rw [hset_ne _ _ _ hne]; exact hohn
  simp only [LinkedList.push_front, hh, hl]

/-- `push_front` succeeds on a well-formed state and preserves
well-formedness. -/
theorem push_front_wf (l : LinkedList T) (x : T) (hw : WF l) :
    ∃ l', l.push_front x = some l' ∧ WF l' := by
  cases hh : l.head with
  | none =>
    refine ⟨_, push_front_none l x hh, ?_⟩
    have htl : l.tail = none := hw.tail_none.2 hh
    constructor <;> dsimp only
    · intro i hi
      by_cases hi' : i = l.fresh
      · omega
      · rw [hset_ne _ _ _ hi'] at hi
        exact Nat.lt_succ_of_lt (hw.fresh_bound i hi)
    · intro h hhd
      refine ⟨⟨x, none, none⟩, ?_, rfl⟩
      cases hhd
      exact hset_eq _ _ _
    · intro i n j hi hnx
      by_cases hi' : i = l.fresh
      · subst hi'
        rw [hset_eq] at hi
        cases hi
        cases hnx
      · rw [hset_ne _ _ _ hi'] at hi
        obtain ⟨m, hm, hmp⟩ := hw.next_ok i n j hi hnx
        have hj : j ≠ l.fresh := by
          intro hj; subst hj
          exact absurd (hw.fresh_bound _ (by simp [hm])) (lt_irrefl _)
        exact ⟨m, by rw [hset_ne _ _ _ hj]; exact hm, hmp⟩
    · intro i n j hi hpv
      by_cases hi' : i = l.fresh
      · subst hi'
        rw [hset_eq] at hi
        cases hi
        cases hpv
      · rw [hset_ne _ _ _ hi'] at hi
        obtain ⟨m, hm, hmn⟩ := hw.prev_ok i n j hi hpv
        have hj : j ≠ l.fresh := by
          intro hj; subst hj
          exact absurd (hw.fresh_bound _ (by simp [hm])) (lt_irrefl _)
        exact ⟨m, by rw [hset_ne _ _ _ hj]; exact hm, hmn⟩
    · simp
    · intro t ht
      cases ht
      exact ⟨⟨x, none, none⟩, hset_eq _ _ _, rfl⟩
  | some oldh =>
    obtain ⟨ohn, hohn, hopv⟩ := hw.head_ok oldh hh
    have holt : oldh < l.fresh := hw.fresh_bound _ (by simp [hohn])
    have hone : oldh ≠ l.fresh := Nat.ne_of_lt holt
    refine ⟨_, push_front_some l x hh hohn hone, ?_⟩
    set nid := l.fresh with hnid
    have hHnid : (hset (hset (hset l.heap nid ⟨x, none, none⟩) oldh
        { ohn with prev := some nid }) nid ⟨x, none, some oldh⟩) nid
        = some ⟨x, none, some oldh⟩ := hset_eq _ _ _
    have hHoldh : (hset (hset (hset l.heap nid ⟨x, none, none⟩) oldh
        { ohn with prev := some nid }) nid ⟨x, none, some oldh⟩) oldh
        = some { ohn with prev := some nid } := by
      rw [hset_ne _ _ _ hone, hset_eq]
    have hHother : ∀ j, j ≠ nid → j ≠ oldh →
        (hset (hset (hset l.heap nid ⟨x, none, none⟩) oldh
        { ohn with prev := some nid }) nid ⟨x, none, some oldh⟩) j = l.heap j := by
      intro j h1 h2
      rw [hset_ne _ _ _ h1, hset_ne _ _ _ h2, hset_ne _ _ _ h1]
    constructor <;> dsimp only
    · intro i hi
      by_cases h1 : i = nid
      · omega
      · by_cases h2 : i = oldh
        · omega
        · rw [hHother i h1 h2] at hi
          exact Nat.lt_succ_of_lt (hw.fresh_bound i hi)
    · intro h hhd
      cases hhd
      exact ⟨⟨x, none, some oldh⟩, hHnid, rfl⟩
    · intro i n j hi hnx
      by_cases h1 : i = nid
      · subst h1
        rw [hHnid] at hi
        cases hi
        cases hnx
        exact ⟨{ ohn with prev := some nid }, hHoldh, rfl⟩
      · by_cases h2 : i = oldh
        · rw [h2] at hi ⊢
          rw [hHoldh] at hi
          cases hi
          obtain ⟨m, hm, hmp⟩ := hw.next_ok oldh ohn j hohn hnx
          have hj1 : j ≠ nid := by
            intro hj; subst hj
            exact absurd (hw.fresh_bound _ (by simp [hm])) (lt_irrefl _)
          have hj2 : j ≠ oldh := by
            intro hj; subst hj
            rw [hohn] at hm
            cases hm
            rw [hopv] at hmp
            cases hmp
          exact ⟨m, by rw [hHother j hj1 hj2]; exact hm, hmp⟩
        · rw [hHother i h1 h2] at hi
          obtain ⟨m, hm, hmp⟩ := hw.next_ok i n j hi hnx
          have hj1 : j ≠ nid := by
            intro hj; subst hj
            exact absurd (hw.fresh_bound _ (by simp [hm])) (lt_irrefl _)
          have hj2 : j ≠ oldh := by
            intro hj; subst hj
            rw [hohn] at hm
            cases hm
            rw [hopv] at hmp
            cases hmp
          exact ⟨m, by rw [hHother j hj1 hj2]; exact hm, hmp⟩
    · intro i n j hi hpv
      by_cases h1 : i = nid
      · subst h1
        rw [hHnid] at hi
        cases hi
        cases hpv
      · by_cases h2 : i = oldh
        · rw [h2] at hi ⊢
          rw [hHoldh] at hi
          cases hi
          have hj : j = nid := by simpa using hpv.symm
          subst hj
          exact ⟨⟨x, none, some oldh⟩, hHnid, rfl⟩
        · rw [hHother i h1 h2] at hi
          obtain ⟨m, hm, hmn⟩ := hw.prev_ok i n j hi hpv
          have hj1 : j ≠ nid := by
            intro hj; subst hj
            exact absurd (hw.fresh_bound _ (by simp [hm])) (lt_irrefl _)
          by_cases hj2 : j = oldh
          · subst hj2
            rw [hohn] at hm
            cases hm
            refine ⟨{ ohn with prev := some nid }, hHoldh, hmn⟩
          · exact ⟨m, by rw [hHother j hj1 hj2]; exact hm, hmn⟩
    · constructor
      · intro ht
        have := hw.tail_none.1 ht
        rw [hh] at this
        cases this
      · intro hhd
        cases hhd
    · intro t ht
      have hlt' := hw.tail_ok t ht
      obtain ⟨n, hn, hnn⟩ := hlt'
      have ht1 : t ≠ nid := by
        intro hj; subst hj
        exact absurd (hw.fresh_bound _ (by simp [hn])) (lt_irrefl _)
      by_cases ht2 : t = oldh
      · subst ht2
        rw [hohn] at hn
        cases hn
        exact ⟨{ ohn with prev := some nid }, hHoldh, hnn⟩
      · exact ⟨n, by rw [hHother t ht1 ht2]; exact hn, hnn⟩

/-- If some live node's `next` points at a live node `i`, then `i`'s `prev`
points back at it. -/
theorem next_into {l : LinkedList T} (hw : WF l) {i : Nat} {ni : Node T}
    (hni : l.heap i = some ni) {j : Nat} {nj : Node T} (hj : l.heap j = some nj)
    (hjx : nj.next = some i) : ni.prev = some j := by
  obtain ⟨k, hk, kp⟩ := hw.next_ok j nj i hj hjx
  rw [hni] at hk
  cases hk
  exact kp

/-- Unfolding of `push_back` on an empty list. -/
theorem push_back_none (l : LinkedList T) (x : T) (htl : l.tail = none) :
    l.push_back x = some
      { l with
        heap := hset l.heap l.fresh ⟨x, none, none⟩,
        fresh := l.fresh + 1,
        head := some l.fresh,
        tail := some l.fresh,
        length := l.length + 1 } := by
  simp only [LinkedList.push_back, htl]

/-- Unfolding of `push_back` on a list with a live old tail. -/
theorem push_back_some (l : LinkedList T) (x : T) {otw : Nat} {otn : Node T}
    (htl : l.tail = some otw) (hotn : l.heap otw = some otn) (hne : otw ≠ l.fresh) :
    l.push_back x = some
      { l with
        heap := hset (hset (hset l.heap l.fresh ⟨x, none, none⟩) otw
          { otn with next := some l.fresh }) l.fresh ⟨x, some otw, none⟩,
        fresh := l.fresh + 1,
        tail := some l.fresh,
        length := l.length + 1 } := by
  have hl : hset l.heap l.fresh ⟨x, none, none⟩ otw = some otn := by
    rw [hset_ne _ _ _ hne]; exact hotn
  simp only [LinkedList.push_back, htl, hl]

/-- `push_back` succeeds on a well-formed state and preserves
well-formedness. -/
theorem push_back_wf (l : LinkedList T) (x : T) (hw : WF l) :
    ∃ l', l.push_back x = some l' ∧ WF l' := by
  cases htl : l.tail with
  | none =>
    have hh : l.head = none := hw.tail_none.1 htl
    refine ⟨_, push_back_none l x htl, ?_⟩
    constructor <;> dsimp only
    · intro i hi
      by_cases hi' : i = l.fresh
      · omega
      · rw [hset_ne _ _ _ hi'] at hi
        exact Nat.lt_succ_of_lt (hw.fresh_bound i hi)
    · intro h hhd
      cases hhd
      exact ⟨⟨x, none, none⟩, hset_eq _ _ _, rfl⟩
    · intro i n j hi hnx
      by_cases hi' : i = l.fresh
      · subst hi'
        rw [hset_eq] at hi
        cases hi
        cases hnx
      · rw [hset_ne _ _ _ hi'] at hi
        obtain ⟨m, hm, hmp⟩ := hw.next_ok i n j hi hnx
        have hj : j ≠ l.fresh := by
          intro hj; subst hj
          exact absurd (hw.fresh_bound _ (by simp [hm])) (lt_irrefl _)
        exact ⟨m, by rw [hset_ne _ _ _ hj]; exact hm, hmp⟩
    · intro i n j hi hpv
      by_cases hi' : i = l.fresh
      · subst hi'
        rw [hset_eq] at hi
        cases hi
        cases hpv
      · rw [hset_ne _ _ _ hi'] at hi
        obtain ⟨m, hm, hmn⟩ := hw.prev_ok i n j hi hpv
        have hj : j ≠ l.fresh := by
          intro hj; subst hj
          exact absurd (hw.fresh_bound _ (by simp [hm])) (lt_irrefl _)
        exact ⟨m, by rw [hset_ne _ _ _ hj]; exact hm, hmn⟩
    · simp
    · intro t ht
      cases ht
      exact ⟨⟨x, none, none⟩, hset_eq _ _ _, rfl⟩
  | some otw =>
    obtain ⟨otn, hotn, hotx⟩ := hw.tail_ok otw htl
    have holt : otw < l.fresh := hw.fresh_bound _ (by simp [hotn])
    have hone : otw ≠ l.fresh := Nat.ne_of_lt holt
    refine ⟨_, push_back_some l x htl hotn hone, ?_⟩
    set nid := l.fresh with hnid
    have hHnid : (hset (hset (hset l.heap nid ⟨x, none, none⟩) otw
        { otn with next := some nid }) nid ⟨x, some otw, none⟩) nid
        = some ⟨x, some otw, none⟩ := hset_eq _ _ _
    have hHotw : (hset (hset (hset l.heap nid ⟨x, none, none⟩) otw
        { otn with next := some nid }) nid ⟨x, some otw, none⟩) otw
        = some { otn with next := some nid } := by
      rw [hset_ne _ _ _ hone, hset_eq]
    have hHother : ∀ j, j ≠ nid → j ≠ otw →
        (hset (hset (hset l.heap nid ⟨x, none, none⟩) otw
        { otn with next := some nid }) nid ⟨x, some otw, none⟩) j = l.heap j := by
      intro j h1 h2
      rw [hset_ne _ _ _ h1, hset_ne _ _ _ h2, hset_ne _ _ _ h1]
    constructor <;> dsimp only
    · intro i hi
      by_cases h1 : i = nid
      · omega
      · by_cases h2 : i = otw
        · omega
        · rw [hHother i h1 h2] at hi
          exact Nat.lt_succ_of_lt (hw.fresh_bound i hi)
    · intro h hhd
      obtain ⟨n, hn, hnp⟩ := hw.head_ok h hhd
      have h1 : h ≠ nid := by
        intro hj; subst hj
        exact absurd (hw.fresh_bound _ (by simp [hn])) (lt_irrefl _)
      by_cases h2 : h = otw
      · subst h2
        rw [hotn] at hn
        cases hn
        exact ⟨{ otn with next := some nid }, hHotw, hnp⟩
      · exact ⟨n, by rw [hHother h h1 h2]; exact hn, hnp⟩
    · intro i n j hi hnx
      by_cases h1 : i = nid
      · rw [h1] at hi
        rw [hHnid] at hi
        cases hi
        cases hnx
      · by_cases h2 : i = otw
        · rw [h2] at hi ⊢
          rw [hHotw] at hi
          cases hi
          have hj : j = nid := by simpa using hnx.symm
          subst hj
          exact ⟨⟨x, some otw, none⟩, hHnid, rfl⟩
        · rw [hHother i h1 h2] at hi
          obtain ⟨m, hm, hmp⟩ := hw.next_ok i n j hi hnx
          have hj1 : j ≠ nid := by
            intro hj; subst hj
            exact absurd (hw.fresh_bound _ (by simp [hm])) (lt_irrefl _)
          by_cases hj2 : j = otw
          · subst hj2
            rw [hotn] at hm
            cases hm
            exact ⟨{ otn with next := some nid }, hHotw, hmp⟩
          · exact ⟨m, by rw [hHother j hj1 hj2]; exact hm, hmp⟩
    · intro i n j hi hpv
      by_cases h1 : i = nid
      · rw [h1] at hi ⊢
        rw [hHnid] at hi
        cases hi
        have hj : j = otw := by simpa using hpv.symm
        subst hj
        exact ⟨{ otn with next := some nid }, hHotw, rfl⟩
      · by_cases h2 : i = otw
        · rw [h2] at hi ⊢
          rw [hHotw] at hi
          cases hi
          have hpv' : otn.prev = some j := hpv
          obtain ⟨m, hm, hmn⟩ := hw.prev_ok otw otn j hotn hpv'
          have hj1 : j ≠ nid := by
            intro hj; subst hj
            exact absurd (hw.fresh_bound _ (by simp [hm])) (lt_irrefl _)
          have hj2 : j ≠ otw := by
            intro hj; subst hj
            rw [hotn] at hm
            cases hm
            rw [hotx] at hmn
            cases hmn
          exact ⟨m, by rw [hHother j hj1 hj2]; exact hm, hmn⟩
        · rw [hHother i h1 h2] at hi
          obtain ⟨m, hm, hmn⟩ := hw.prev_ok i n j hi hpv
          have hj1 : j ≠ nid := by
            intro hj; subst hj
            exact absurd (hw.fresh_bound _ (by simp [hm])) (lt_irrefl _)
          have hj2 : j ≠ otw := by
            intro hj; subst hj
            rw [hotn] at hm
            cases hm
            rw [hotx] at hmn
            cases hmn
          exact ⟨m, by rw [hHother j hj1 hj2]; exact hm, hmn⟩
    · constructor
      · intro ht
        cases ht
      · intro hhd
        have := hw.tail_none.2 hhd
        rw [htl] at this
        cases this
    · intro t ht
      cases ht
      exact ⟨⟨x, some otw, none⟩, hHnid, rfl⟩

/-- `pop_front` on a well-formed state never gets stuck (in particular the
`Rc::try_unwrap(..).ok().unwrap()` in the source never panics) and the
result state is well formed. -/
theorem pop_front_wf (l : LinkedList T) (hw : WF l) :
    ∃ v l', l.pop_front = some (v, l') ∧ WF l' := by
  cases hh : l.head with
  | none =>
    have he : { l with head := (none : Option Nat) } = l := by
      cases l
      simp only at hh
      simp [hh]
    refine ⟨none, l, ?_, hw⟩
    simp only [LinkedList.pop_front, hh, he]
  | some hid =>
    obtain ⟨hnd, hhnd, hprev⟩ := hw.head_ok hid hh
    have hnopt : ∀ j n, l.heap j = some n → n.next ≠ some hid := by
      intro j n hj hc
      have := next_into hw hhnd hj hc
      rw [hprev] at this
      cases this
    cases hnx : hnd.next with
    | some nid =>
      obtain ⟨m, hm, hmp⟩ := hw.next_ok hid hnd nid hhnd hnx
      have hne : nid ≠ hid := by
        intro he'
        subst he'
        rw [hhnd] at hm
        cases hm
        rw [hprev] at hmp
        cases hmp
      have hm1 : hset l.heap hid { hnd with next := none } nid = some m := by
        rw [hset_ne _ _ _ hne]; exact hm
      have hsc : strongCount
          { l with
            heap := hset (hset l.heap hid { hnd with next := none }) nid
              { m with prev := none },
            head := some nid } hid = 0 := by
        apply strongCount_eq_zero
        · dsimp only
          intro hc
          exact hne (by cases hc; rfl)
        · dsimp only
          intro j n hj hc
          by_cases hj1 : j = nid
          · rw [hj1] at hj
            rw [hset_eq] at hj
            cases hj
            exact hnopt nid m hm hc
          · by_cases hj2 : j = hid
            · subst hj2
              rw [hset_ne _ _ _ hj1, hset_eq] at hj
              cases hj
              cases hc
            · rw [hset_ne _ _ _ hj1, hset_ne _ _ _ hj2] at hj
              exact hnopt j n hj hc
      refine ⟨some hnd.data,
        { l with
          heap := hdel (hset (hset l.heap hid { hnd with next := none }) nid
            { m with prev := none }) hid,
          head := some nid,
          length := l.length - 1 }, ?_, ?_⟩
      · simp only [LinkedList.pop_front, hh, hhnd, hnx, hm1, hsc, if_pos]
      · have hHnid : (hdel (hset (hset l.heap hid { hnd with next := none }) nid
            { m with prev := none }) hid) nid = some { m with prev := none } := by
          rw [hdel_ne _ _ hne, hset_eq]
        have hHhid : (hdel (hset (hset l.heap hid { hnd with next := none }) nid
            { m with prev := none }) hid) hid = none := hdel_eq _ _
        have hHother : ∀ j, j ≠ nid → j ≠ hid →
            (hdel (hset (hset l.heap hid { hnd with next := none }) nid
            { m with prev := none }) hid) j = l.heap j := by
          intro j h1 h2
          rw [hdel_ne _ _ h2, hset_ne _ _ _ h1, hset_ne _ _ _ h2]
        constructor <;> dsimp only
        · intro i hi
          by_cases h1 : i = nid
          · rw [h1]
            exact hw.fresh_bound nid (by simp [hm])
          · by_cases h2 : i = hid
            · rw [h2, hHhid] at hi
              cases hi
            · rw [hHother i h1 h2] at hi
              exact hw.fresh_bound i hi
        · intro h hhd
          cases hhd
          exact ⟨{ m with prev := none }, hHnid, rfl⟩
        · intro i n j hi hnx'
          by_cases h1 : i = nid
          · rw [h1] at hi ⊢
            rw [hHnid] at hi
            cases hi
            have hnx'' : m.next = some j := hnx'
            obtain ⟨k, hk, hkp⟩ := hw.next_ok nid m j hm hnx''
            have hj2 : j ≠ hid := by
              intro hj; subst hj
              exact hnopt nid m hm hnx''
            have hj1 : j ≠ nid := by
              intro hj; subst hj
              rw [hm] at hk
              cases hk
              rw [hmp] at hkp
              cases hkp
              exact hne rfl
            exact ⟨k, by rw [hHother j hj1 hj2]; exact hk, hkp⟩
          · by_cases h2 : i = hid
            · rw [h2, hHhid] at hi
              cases hi
            · rw [hHother i h1 h2] at hi
              obtain ⟨k, hk, hkp⟩ := hw.next_ok i n j hi hnx'
              have hj2 : j ≠ hid := by
                intro hj; subst hj
                exact hnopt i n hi hnx'
              have hj1 : j ≠ nid := by
                intro hj; subst hj
                rw [hm] at hk
                cases hk
                rw [hmp] at hkp
                cases hkp
                exact h2 rfl
              exact ⟨k, by rw [hHother j hj1 hj2]; exact hk, hkp⟩
        · intro i n j hi hpv
          by_cases h1 : i = nid
          · rw [h1] at hi
            rw [hHnid] at hi
            cases hi
            cases hpv
          · by_cases h2 : i = hid
            · rw [h2, hHhid] at hi
              cases hi
            · rw [hHother i h1 h2] at hi
              obtain ⟨k, hk, hkn⟩ := hw.prev_ok i n j hi hpv
              have hj2 : j ≠ hid := by
                intro hj; subst hj
                rw [hhnd] at hk
                cases hk
                rw [hnx] at hkn
                cases hkn
                exact h1 rfl
              by_cases hj1 : j = nid
              · subst hj1
                rw [hm] at hk
                cases hk
                exact ⟨{ m with prev := none }, hHnid, hkn⟩
              · exact ⟨k, by rw [hHother j hj1 hj2]; exact hk, hkn⟩
        · constructor
          · intro hc
            have := hw.tail_none.1 hc
            rw [hh] at this
            cases this
          · intro hc
            cases hc
        · intro t ht
          obtain ⟨k, hk, hkn⟩ := hw.tail_ok t ht
          have ht2 : t ≠ hid := by
            intro hj; subst hj
            rw [hhnd] at hk
            cases hk
            rw [hnx] at hkn
            cases hkn
          by_cases ht1 : t = nid
          · subst ht1
            rw [hm] at hk
            cases hk
            exact ⟨{ m with prev := none }, hHnid, hkn⟩
          · exact ⟨k, by rw [hHother t ht1 ht2]; exact hk, hkn⟩
    | none =>
      have hsc : strongCount
          { l with
            heap := hset l.heap hid { hnd with next := none },
            head := none,
            tail := none } hid = 0 := by
        apply strongCount_eq_zero
        · dsimp only
          intro hc
          cases hc
        · dsimp only
          intro j n hj hc
          by_cases hj2 : j = hid
          · subst hj2
            rw [hset_eq] at hj
            cases hj
            cases hc
          · rw [hset_ne _ _ _ hj2] at hj
            exact hnopt j n hj hc
      refine ⟨some hnd.data,
        { l with
          heap := hdel (hset l.heap hid { hnd with next := none }) hid,
          head := none,
          tail := none,
          length := l.length - 1 }, ?_, ?_⟩
      · simp only [LinkedList.pop_front, hh, hhnd, hnx, hsc, if_pos]
      · have hHhid : (hdel (hset l.heap hid { hnd with next := none }) hid) hid
            = none := hdel_eq _ _
        have hHother : ∀ j, j ≠ hid →
            (hdel (hset l.heap hid { hnd with next := none }) hid) j = l.heap j := by
          intro j h2
          rw [hdel_ne _ _ h2, hset_ne _ _ _ h2]
        constructor <;> dsimp only
        · intro i hi
          by_cases h2 : i = hid
          · rw [h2, hHhid] at hi
            cases hi
          · rw [hHother i h2] at hi
            exact hw.fresh_bound i hi
        · intro h hhd
          cases hhd
        · intro i n j hi hnx'
          by_cases h2 : i = hid
          · rw [h2, hHhid] at hi
            cases hi
          · rw [hHother i h2] at hi
            obtain ⟨k, hk, hkp⟩ := hw.next_ok i n j hi hnx'
            have hj2 : j ≠ hid := by
              intro hj; subst hj
              exact hnopt i n hi hnx'
            exact ⟨k, by rw [hHother j hj2]; exact hk, hkp⟩
        · intro i n j hi hpv
          by_cases h2 : i = hid
          · rw [h2, hHhid] at hi
            cases hi
          · rw [hHother i h2] at hi
            obtain ⟨k, hk, hkn⟩ := hw.prev_ok i n j hi hpv
            have hj2 : j ≠ hid := by
              intro hj; subst hj
              rw [hhnd] at hk
              cases hk
              rw [hnx] at hkn
              cases hkn
            exact ⟨k, by rw [hHother j hj2]; exact hk, hkn⟩
        · simp
        · intro t ht
          cases ht

theorem upgrade_none (h : Nat → Option (Node T)) : upgrade h none = none := rfl

theorem upgrade_live (h : Nat → Option (Node T)) {i : Nat} {n : Node T}
    (hi : h i = some n) : upgrade h (some i) = some i := by
  simp [upgrade, hi]

/-- `pop_back` on a well-formed state never gets stuck and the result state
is well formed.  (The value may be `none` and the length is decremented
twice on success, exactly as in the source.) -/
theorem pop_back_wf (l : LinkedList T) (hw : WF l) :
    ∃ v l', l.pop_back = some (v, l') ∧ WF l' := by
  cases htl : l.tail with
  | none =>
    have he : { l with tail := (none : Option Nat) } = l := by
      cases l
      simp only at htl
      simp [htl]
    refine ⟨none, l, ?_, hw⟩
    simp only [LinkedList.pop_back, htl, Option.isSome_none, Bool.false_eq_true,
      if_false, upgrade_none, he]
  | some tid =>
    obtain ⟨tn, htn, htnx⟩ := hw.tail_ok tid htl
    have hheadne : l.head ≠ some tid ∨ tn.prev = none := by
      by_cases hc : l.head = some tid
      · obtain ⟨k, hk, hkp⟩ := hw.head_ok tid hc
        rw [htn] at hk
        cases hk
        exact Or.inr hkp
      · exact Or.inl hc
    cases hpv : tn.prev with
    | some pid =>
      have hheadne' : l.head ≠ some tid := by
        rcases hheadne with h | h
        · exact h
        · rw [hpv] at h; cases h
      obtain ⟨pm, hpm, hpmn⟩ := hw.prev_ok tid tn pid htn hpv
      have hpne : pid ≠ tid := by
        intro he'
        rw [he'] at hpm
        rw [htn] at hpm
        cases hpm
        rw [htnx] at hpmn
        cases hpmn
      have hp1 : hset l.heap tid { tn with prev := none } pid = some pm := by
        rw [hset_ne _ _ _ hpne]; exact hpm
      have hsc : strongCount
          { l with
            heap := hset (hset l.heap tid { tn with prev := none }) pid
              { pm with next := none },
            tail := some pid,
            length := l.length - 1 } tid = 0 := by
        apply strongCount_eq_zero
        · dsimp only
          exact hheadne'
        · dsimp only
          intro j n hj hc
          by_cases hj1 : j = pid
          · rw [hj1] at hj
            rw [hset_eq] at hj
            cases hj
            cases hc
          · by_cases hj2 : j = tid
            · rw [hj2] at hj
              rw [hset_ne _ _ _ (Ne.symm hpne), hset_eq] at hj
              cases hj
              have : tn.next = some tid := hc
              rw [htnx] at this
              cases this
            · rw [hset_ne _ _ _ hj1, hset_ne _ _ _ hj2] at hj
              have := next_into hw htn hj hc
              rw [hpv] at this
              cases this
              exact hj1 rfl
      refine ⟨some tn.data,
        { l with
          heap := hdel (hset (hset l.heap tid { tn with prev := none }) pid
            { pm with next := none }) tid,
          tail := some pid,
          length := l.length - 1 - 1 }, ?_, ?_⟩
      · simp only [LinkedList.pop_back, htl, Option.isSome_some, if_true,
          upgrade_live _ htn, htn, hpv, upgrade_live _ hp1, hp1, hsc, if_pos]
      · have hHpid : (hdel (hset (hset l.heap tid { tn with prev := none }) pid
            { pm with next := none }) tid) pid = some { pm with next := none } := by
          rw [hdel_ne _ _ hpne, hset_eq]
        have hHtid : (hdel (hset (hset l.heap tid { tn with prev := none }) pid
            { pm with next := none }) tid) tid = none := hdel_eq _ _
        have hHother : ∀ j, j ≠ pid → j ≠ tid →
            (hdel (hset (hset l.heap tid { tn with prev := none }) pid
            { pm with next := none }) tid) j = l.heap j := by
          intro j h1 h2
          rw [hdel_ne _ _ h2, hset_ne _ _ _ h1, hset_ne _ _ _ h2]
        constructor <;> dsimp only
        · intro i hi
          by_cases h1 : i = pid
          · rw [h1]
            exact hw.fresh_bound pid (by simp [hpm])
          · by_cases h2 : i = tid
            · rw [h2, hHtid] at hi
              cases hi
            · rw [hHother i h1 h2] at hi
              exact hw.fresh_bound i hi
        · intro h hhd
          obtain ⟨k, hk, hkp⟩ := hw.head_ok h hhd
          have h2 : h ≠ tid := by
            intro hj; rw [hj] at hhd; exact hheadne' hhd
          by_cases h1 : h = pid
          · rw [h1] at hk ⊢
            rw [hpm] at hk
            cases hk
            exact ⟨{ pm with next := none }, hHpid, hkp⟩
          · exact ⟨k, by rw [hHother h h1 h2]; exact hk, hkp⟩
        · intro i n j hi hnx'
          by_cases h1 : i = pid
          · rw [h1] at hi
            rw [hHpid] at hi
            cases hi
            cases hnx'
          · by_cases h2 : i = tid
            · rw [h2, hHtid] at hi
              cases hi
            · rw [hHother i h1 h2] at hi
              obtain ⟨k, hk, hkp⟩ := hw.next_ok i n j hi hnx'
              have hj2 : j ≠ tid := by
                intro hj; subst hj
                have := next_into hw htn hi hnx'
                rw [hpv] at this
                cases this
                exact h1 rfl
              by_cases hj1 : j = pid
              · rw [hj1] at hk ⊢
                rw [hpm] at hk
                cases hk
                exact ⟨{ pm with next := none }, hHpid, hkp⟩
              · exact ⟨k, by rw [hHother j hj1 hj2]; exact hk, hkp⟩
        · intro i n j hi hpv'
          by_cases h1 : i = pid
          · rw [h1] at hi ⊢
            rw [hHpid] at hi
            cases hi
            have hpv'' : pm.prev = some j := hpv'
            obtain ⟨k, hk, hkn⟩ := hw.prev_ok pid pm j hpm hpv''
            have hj2 : j ≠ tid := by
              intro hj; subst hj
              rw [htn] at hk
              cases hk
              rw [htnx] at hkn
              cases hkn
            have hj1 : j ≠ pid := by
              intro hj; subst hj
              rw [hpm] at hk
              cases hk
              rw [hpmn] at hkn
              cases hkn
              exact hpne rfl
            exact ⟨k, by rw [hHother j hj1 hj2]; exact hk, hkn⟩
          · by_cases h2 : i = tid
            · rw [h2, hHtid] at hi
              cases hi
            · rw [hHother i h1 h2] at hi
              obtain ⟨k, hk, hkn⟩ := hw.prev_ok i n j hi hpv'
              have hj2 : j ≠ tid := by
                intro hj; subst hj
                rw [htn] at hk
                cases hk
                rw [htnx] at hkn
                cases hkn
              have hj1 : j ≠ pid := by
                intro hj; subst hj
                rw [hpm] at hk
                cases hk
                rw [hpmn] at hkn
                cases hkn
                exact h2 rfl
              exact ⟨k, by rw [hHother j hj1 hj2]; exact hk, hkn⟩
        · constructor
          · intro hc
            cases hc
          · intro hc
            have := hw.tail_none.2 hc
            rw [htl] at this
            cases this
        · intro t ht
          cases ht
          exact ⟨{ pm with next := none }, hHpid, rfl⟩
    | none =>
      have hsc : strongCount
          { l with
            heap := hset l.heap tid { tn with prev := none },
            head := none,
            tail := none,
            length := l.length - 1 } tid = 0 := by
        apply strongCount_eq_zero
        · dsimp only
          intro hc
          cases hc
        · dsimp only
          intro j n hj hc
          by_cases hj2 : j = tid
          · rw [hj2] at hj
            rw [hset_eq] at hj
            cases hj
            have : tn.next = some tid := hc
            rw [htnx] at this
            cases this
          · rw [hset_ne _ _ _ hj2] at hj
            have := next_into hw htn hj hc
            rw [hpv] at this
            cases this
      refine ⟨some tn.data,
        { l with
          heap := hdel (hset l.heap tid { tn with prev := none }) tid,
          head := none,
          tail := none,
          length := l.length - 1 - 1 }, ?_, ?_⟩
      · simp only [LinkedList.pop_back, htl, Option.isSome_some, if_true,
          upgrade_live _ htn, htn, hpv, upgrade_none, hsc, if_pos]
      · have hHtid : (hdel (hset l.heap tid { tn with prev := none }) tid) tid
            = none := hdel_eq _ _
        have hHother : ∀ j, j ≠ tid →
            (hdel (hset l.heap tid { tn with prev := none }) tid) j = l.heap j := by
          intro j h2
          rw [hdel_ne _ _ h2, hset_ne _ _ _ h2]
        constructor <;> dsimp only
        · intro i hi
          by_cases h2 : i = tid
          · rw [h2, hHtid] at hi
            cases hi
          · rw [hHother i h2] at hi
            exact hw.fresh_bound i hi
        · intro h hhd
          cases hhd
        · intro i n j hi hnx'
          by_cases h2 : i = tid
          · rw [h2, hHtid] at hi
            cases hi
          · rw [hHother i h2] at hi
            obtain ⟨k, hk, hkp⟩ := hw.next_ok i n j hi hnx'
            have hj2 : j ≠ tid := by
              intro hj; subst hj
              have := next_into hw htn hi hnx'
              rw [hpv] at this
              cases this
            exact ⟨k, by rw [hHother j hj2]; exact hk, hkp⟩
        · intro i n j hi hpv'
          by_cases h2 : i = tid
          · rw [h2, hHtid] at hi
            cases hi
          · rw [hHother i h2] at hi
            obtain ⟨k, hk, hkn⟩ := hw.prev_ok i n j hi hpv'
            have hj2 : j ≠ tid := by
              intro hj; subst hj
              rw [htn] at hk
              cases hk
              rw [htnx] at hkn
              cases hkn
            exact ⟨k, by rw [hHother j hj2]; exact hk, hkn⟩
        · simp
        · intro t ht
          cases ht

/-- Every operation succeeds on a well-formed state and preserves
well-formedness. -/
theorem stepOp_wf (op : Op T) (l : LinkedList T) (hw : WF l) :
    ∃ v l', stepOp op l = some (v, l') ∧ WF l' := by
  cases op with
  | push_front x =>
    obtain ⟨l', he, hw'⟩ := push_front_wf l x hw
    exact ⟨none, l', by simp [stepOp, he], hw'⟩
  | push_back x =>
    obtain ⟨l', he, hw'⟩ := push_back_wf l x hw
    exact ⟨none, l', by simp [stepOp, he], hw'⟩
  | pop_front =>
    obtain ⟨v, l', he, hw'⟩ := pop_front_wf l hw
    exact ⟨v, l', he, hw'⟩
  | pop_back =>
    obtain ⟨v, l', he, hw'⟩ := pop_back_wf l hw
    exact ⟨v, l', he, hw'⟩

/-- A whole run of operations succeeds on a well-formed state and ends well
formed. -/
theorem runOps_wf : ∀ (ops : List (Op T)) (l : LinkedList T), WF l →
    ∃ vs l', runOps ops l = some (vs, l') ∧ WF l'
  | [], l, hw => ⟨[], l, rfl, hw⟩
  | op :: ops, l, hw => by
    obtain ⟨v, l1, he1, hw1⟩ := stepOp_wf op l hw
    obtain ⟨vs, l2, he2, hw2⟩ := runOps_wf ops l1 hw1
    exact ⟨v :: vs, l2, by simp [runOps, he1, he2], hw2⟩

/-- Every reachable doubly-list state is well formed. -/
theorem reachable_wf {l : LinkedList T} (hr : Reachable l) : WF l := by
  obtain ⟨ops, hops⟩ := hr
  obtain ⟨vs, l', he, hw⟩ := runOps_wf ops LinkedList.new wf_new
  rw [he] at hops
  simp at hops
  exact hops ▸ hw

end Doubly

/-- C1: evaluation at the failing input `append(1); pop_back()` on the
singly list.  `pop_back` returns the detached value and removes the last
node (the head becomes empty), but the stored length counter stays at 1
instead of dropping to 0: the source computes
`self.length.saturating_sub(1)` and discards the result, contradicting
the claim that `len()` after `pop_back` equals `len()` before minus one. -/
theorem c1_singly_pop_back_keeps_length :
    ((Single.LinkedList.new.append (1 : Nat)).pop_back).1 = some 1 ∧
    ((Single.LinkedList.new.append (1 : Nat)).pop_back).2.head = none ∧
    (Single.LinkedList.new.append (1 : Nat)).len = 1 ∧
    ((Single.LinkedList.new.append (1 : Nat)).pop_back).2.len = 1 := by
  refine ⟨?_, ?_, ?_, ?_⟩ <;>
    simp [Single.LinkedList.pop_back, Single.LinkedList.append,
      Single.LinkedList.new, Single.LinkedList.len, Single.appendNode,
      Single.Node.new, Single.popBackAux]

/-- C2: evaluation at the failing input `push_back(1); push_back(2);
pop_back()` on the doubly list.  The pop returns 2 and one element (1)
remains in the list, but the stored length drops from 2 to 0 instead of 1:
`pop_back` decrements the counter twice (once before unlinking and once
after the successful `try_unwrap`), contradicting the claim that a
successful `pop_back` decrements the length by exactly one. -/
theorem c2_doubly_pop_back_decrements_twice :
    (Doubly.runOps [Doubly.Op.push_back (1 : Nat), Doubly.Op.push_back 2,
      Doubly.Op.pop_back] Doubly.LinkedList.new).map
      (fun p => (p.1, p.2.len, p.2.toList)) = some ([none, none, some 2], 0, [1]) :=
  rfl

/-- C3: the sequence `append(1); pop_back()` on the singly list performs
one insertion and one successful pop, so the claim requires `len() = 0`
afterwards, but the code reports 1 (the singly `pop_back` discards its
length decrement). -/
theorem c3_singly_len_diverges_from_op_count :
    (Single.runOps [Single.Op.append (1 : Nat), Single.Op.pop_back]
      Single.LinkedList.new).1 = [none, some 1] ∧
    (Single.runOps [Single.Op.append (1 : Nat), Single.Op.pop_back]
      Single.LinkedList.new).2.len = 1 := by
  refine ⟨?_, ?_⟩ <;>
    simp [Single.runOps, Single.stepOp, Single.LinkedList.pop_back,
      Single.LinkedList.append, Single.LinkedList.new, Single.LinkedList.len,
      Single.appendNode, Single.Node.new, Single.popBackAux]

/-- C4: in the reachable singly-list state after `append(1); pop_back()`
no node is reachable from the head, yet the stored length counter is 1, so
the claimed invariant `length = number of nodes reachable from head` does
not hold in every reachable state. -/
theorem c4_singly_length_counter_ne_node_count :
    Single.nodeCount (Single.runOps [Single.Op.append (1 : Nat),
      Single.Op.pop_back] Single.LinkedList.new).2.head = 0 ∧
    (Single.runOps [Single.Op.append (1 : Nat), Single.Op.pop_back]
      Single.LinkedList.new).2.length = 1 := by
  refine ⟨?_, ?_⟩ <;>
    simp [Single.runOps, Single.stepOp, Single.LinkedList.pop_back,
      Single.LinkedList.append, Single.LinkedList.new, Single.appendNode,
      Single.Node.new, Single.popBackAux, Single.nodeCount]

/-- C5: in the reachable singly-list state after `append(1); pop_back()`
the head is absent while the stored length is 1, refuting the claimed
equivalence that the head is none if and only if the length counter is 0. -/
theorem c5_singly_head_none_length_nonzero :
    (Single.runOps [Single.Op.append (1 : Nat), Single.Op.pop_back]
      Single.LinkedList.new).2.head = none ∧
    (Single.runOps [Single.Op.append (1 : Nat), Single.Op.pop_back]
      Single.LinkedList.new).2.length = 1 := by
  refine ⟨?_, ?_⟩ <;>
    simp [Single.runOps, Single.stepOp, Single.LinkedList.pop_back,
      Single.LinkedList.append, Single.LinkedList.new, Single.appendNode,
      Single.Node.new, Single.popBackAux]

/-- C6: on every reachable state of either list that is empty (no head
node), each of `pop` and `pop_back` (singly) and `pop_front` and
`pop_back` (doubly) returns the empty result and leaves the entire list
state, including the length counter, unchanged — hence repeating the pop
repeats the identical no-op. -/
theorem c6_pop_on_empty_is_noop {T : Type} (ls : Single.LinkedList T)
    (ld : Doubly.LinkedList T) (_hs : Single.Reachable ls)
    (hd : Doubly.Reachable ld) (hse : ls.head = none) (hde : ld.head = none) :
    ls.pop = (none, ls) ∧ ls.pop_back = (none, ls) ∧
    ld.pop_front = some (none, ld) ∧ ld.pop_back = some (none, ld) := by
  have hw := Doubly.reachable_wf hd
  have htl : ld.tail = none := hw.tail_none.2 hde
  refine ⟨?_, ?_, ?_, ?_⟩
  · simp [Single.LinkedList.pop, hse]
  · simp [Single.LinkedList.pop_back, hse]
  · have he : { ld with head := (none : Option Nat) } = ld := by
      cases ld
      simp only at hde
      simp [hde]
    simp only [Doubly.LinkedList.pop_front, hde, he]
  · have he : { ld with tail := (none : Option Nat) } = ld := by
      cases ld
      simp only at htl
      simp [htl]
    simp only [Doubly.LinkedList.pop_back, htl, Option.isSome_none,
      Bool.false_eq_true, if_false, Doubly.upgrade_none, he]

/-- C6 witness: the empty-pop no-op facts instantiated at freshly created
lists, with every hypothesis discharged concretely. -/
theorem c6_pop_on_empty_is_noop_witness :
    Single.Reachable (Single.LinkedList.new : Single.LinkedList Nat) ∧
    Doubly.Reachable (Doubly.LinkedList.new : Doubly.LinkedList Nat) ∧
    ((Single.LinkedList.new : Single.LinkedList Nat).pop
        = (none, Single.LinkedList.new) ∧
      (Single.LinkedList.new : Single.LinkedList Nat).pop_back
        = (none, Single.LinkedList.new) ∧
      (Doubly.LinkedList.new : Doubly.LinkedList Nat).pop_front
        = some (none, Doubly.LinkedList.new) ∧
      (Doubly.LinkedList.new : Doubly.LinkedList Nat).pop_back
        = some (none, Doubly.LinkedList.new)) :=
  ⟨⟨[], rfl⟩, ⟨[], rfl⟩,
    c6_pop_on_empty_is_noop Single.LinkedList.new Doubly.LinkedList.new
      ⟨[], rfl⟩ ⟨[], rfl⟩ rfl rfl⟩

/-- C7: draining the singly list by repeated `pop` after inserting the
elements of `xs` with `append` yields `xs` in insertion order (FIFO), and
after inserting them with `push` (push-front) yields `xs` reversed (LIFO).
Fuel `xs.length + extra` shows the drain produces exactly the inserted
elements and then finds the list empty. -/
theorem c7_append_fifo_push_lifo {T : Type} (xs : List T) (extra : Nat) :
    Single.popDrain (xs.length + extra)
      (Single.appendAll Single.LinkedList.new xs) = xs ∧
    Single.popDrain (xs.length + extra)
      (Single.pushAll Single.LinkedList.new xs) = xs.reverse := by
  constructor
  · have h1 : Single.nodeElems (Single.appendAll Single.LinkedList.new xs).head
        = xs := by
      rw [Single.nodeElems_appendAll]
      simp [Single.LinkedList.new, Single.nodeElems]
    have h2 : xs.length
        = Single.nodeCount (Single.appendAll Single.LinkedList.new xs).head := by
      rw [Single.nodeCount_eq_length_nodeElems, h1]
    rw [h2]
    exact (Single.popDrain_eq (Single.appendAll Single.LinkedList.new xs).head extra
      (Single.appendAll Single.LinkedList.new xs).length).trans h1
  · have h1 : Single.nodeElems (Single.pushAll Single.LinkedList.new xs).head
        = xs.reverse := by
      rw [Single.nodeElems_pushAll]
      simp [Single.LinkedList.new, Single.nodeElems]
    have h2 : xs.length
        = Single.nodeCount (Single.pushAll Single.LinkedList.new xs).head := by
      rw [Single.nodeCount_eq_length_nodeElems, h1, List.length_reverse]
    rw [h2]
    exact (Single.popDrain_eq (Single.pushAll Single.LinkedList.new xs).head extra
      (Single.pushAll Single.LinkedList.new xs).length).trans h1

/-- C8: the doubly-list end-symmetry scenario: after `push_front(1);
push_back(2); push_front(3); push_back(4)` on a new list the logical
element order is 3,1,2,4; the subsequent `pop_front, pop_back, pop_front,
pop_back` return 3, 4, 1, 2, and both further pops report empty. -/
theorem c8_doubly_end_symmetry :
    (Doubly.runOps [Doubly.Op.push_front (1 : Nat), Doubly.Op.push_back 2,
      Doubly.Op.push_front 3, Doubly.Op.push_back 4]
      Doubly.LinkedList.new).map (fun p => p.2.toList) = some [3, 1, 2, 4] ∧
    (Doubly.runOps [Doubly.Op.push_front (1 : Nat), Doubly.Op.push_back 2,
      Doubly.Op.push_front 3, Doubly.Op.push_back 4, Doubly.Op.pop_front,
      Doubly.Op.pop_back, Doubly.Op.pop_front, Doubly.Op.pop_back,
      Doubly.Op.pop_front, Doubly.Op.pop_back]
      Doubly.LinkedList.new).map Prod.fst
      = some [none, none, none, none, some 3, some 4, some 1, some 2, none, none] :=
  ⟨rfl, rfl⟩

/-- C9: draining the iterator returned by `iter()` yields exactly the
list's elements in head-to-tail order and then terminates: with fuel the
node count plus any surplus, the drain returns precisely the chain's
elements in order, the surplus producing nothing (the sequence is finite).
`iter` takes the list by shared reference — a pure function here — so
calling it again on the unmodified list restarts the same sequence. -/
theorem c9_iter_yields_elems_in_order {T : Type} (l : Single.LinkedList T)
    (extra : Nat) :
    Single.iterDrain (Single.nodeCount l.head + extra) l.iter
      = Single.nodeElems l.head :=
  Single.iterDrain_eq l.head extra

/-- C10: on every reachable doubly-list state, `pop_front` completes
without panicking.  The model returns `none` exactly when
`Rc::try_unwrap(head_node).ok().unwrap()` would panic, i.e. when a strong
reference other than the taken head `Rc` remains; well-formedness of
reachable states shows the count of remaining strong references is zero,
so the unwrap always succeeds. -/
theorem c10_pop_front_never_panics {T : Type} (l : Doubly.LinkedList T)
    (h : Doubly.Reachable l) : (Doubly.LinkedList.pop_front l).isSome := by
  obtain ⟨v, l', he, _⟩ := Doubly.pop_front_wf l (Doubly.reachable_wf h)
  rw [he]
  rfl

/-- C10 witness: instantiated at the freshly created empty doubly list. -/
theorem c10_pop_front_never_panics_witness :
    Doubly.Reachable (Doubly.LinkedList.new : Doubly.LinkedList Nat) ∧
    ((Doubly.LinkedList.new : Doubly.LinkedList Nat).pop_front).isSome :=
  ⟨⟨[], rfl⟩, c10_pop_front_never_panics Doubly.LinkedList.new ⟨[], rfl⟩⟩
